import Mathlib

/-!
Verification development for the FieldEmbed training kernel
(`src/fieldembed/models/fieldembed_core.pyx`).

The kernel is shallowly embedded: float arithmetic is idealised as exact
rational arithmetic (`ℚ`), flat C arrays become total functions `ℕ → ℚ`
(or `ℤ → ℕ` where the source can read one element before the start of an
array), and the precomputed sigmoid tables become explicit function
parameters, matching their role as read-only globals.  The control flow
(loops, `continue` statements, in-place updates, the PRNG threading) is
reproduced statement by statement from the Cython source.
-/

namespace FieldEmbed

/-- flat float arrays (C pointers into row-major matrices) become total maps. -/
abbrev Vec := ℕ → ℚ

/-- compile-time constant `MAX_SENTENCE_LEN` from the source. -/
def MAX_SENTENCE_LEN : ℕ := 10000

/-- compile-time constant `EXP_TABLE_SIZE` from the source. -/
def EXP_TABLE_SIZE : ℕ := 1000

/-- compile-time constant `MAX_EXP` from the source, as a rational. -/
def MAX_EXP : ℚ := 6

/-- embedding of `our_dot` (manual-loop semantics of the BLAS dot product):
dot product of `size` entries of `x` starting at `xo` with entries of `y`
starting at `yo`. -/
def our_dot (size : ℕ) (x : Vec) (xo : ℕ) (y : Vec) (yo : ℕ) : ℚ :=
  ((List.range size).map (fun t => x (xo + t) * y (yo + t))).sum

/-- embedding of `our_saxpy`: `y[yo+t] += a * x[xo+t]` for `t < size`,
returning the updated array. -/
def our_saxpy (size : ℕ) (a : ℚ) (x : Vec) (xo : ℕ) (y : Vec) (yo : ℕ) : Vec :=
  fun p => if yo ≤ p ∧ p < yo + size then y p + a * x (xo + (p - yo)) else y p

/-- embedding of `sscal`: `y[yo+t] *= a` for `t < size`. -/
def sscal (size : ℕ) (a : ℚ) (y : Vec) (yo : ℕ) : Vec :=
  fun p => if yo ≤ p ∧ p < yo + size then a * y p else y p

/-- embedding of `memset(y + off, 0, len * sizeof(REAL_t))`. -/
def memsetZero (y : Vec) (off len : ℕ) : Vec :=
  fun p => if off ≤ p ∧ p < off + len then 0 else y p

/-- one PRNG advance: `state = (state * 25214903917 + 11) & 281474976710655`,
exactly the expression inlined in both kernels and in `random_int32`. -/
def advanceRng (s : ℕ) : ℕ := (s * 25214903917 + 11) &&& 281474976710655

/-- embedding of `random_int32`: returns the pre-advance `state >> 16`
together with the advanced state. -/
def random_int32 (s : ℕ) : ℕ × ℕ := (s >>> 16, advanceRng s)

/-- iterated PRNG state: `prngStream seed n` is the state after `n` advances. -/
def prngStream (seed : ℕ) : ℕ → ℕ
  | 0 => seed
  | n + 1 => (random_int32 (prngStream seed n)).2

/-- the `n`-th value handed to a consumer of `random_int32` starting from `seed`. -/
def nthDraw (seed n : ℕ) : ℕ := (random_int32 (prngStream seed n)).1

/-- loop body of `bisect_left`, with the loop turned into structural
recursion on a fuel bound (the C `while hi > lo` loop strictly decreases
`hi - lo` each iteration, so fuel `hi - lo` is enough). -/
def bisectGo (a : ℕ → ℕ) (x : ℕ) : ℕ → ℕ → ℕ → ℕ
  | 0, lo, _ => lo
  | fuel + 1, lo, hi =>
    if lo < hi then
      let mid := (lo + hi) / 2
      if x ≤ a mid then bisectGo a x fuel lo mid
      else bisectGo a x fuel (mid + 1) hi
    else lo

/-- embedding of `bisect_left(a, x, lo, hi)` from the source. -/
def bisect_left (a : ℕ → ℕ) (x lo hi : ℕ) : ℕ := bisectGo a x (hi - lo) lo hi

/-! ## Kernel parameters and state -/

/-- read-only per-call parameters of the two per-token update kernels
(the fields of `Word2VecConfig` that the kernels read, plus the global
sigmoid tables).  `endIdx` takes a signed index because the source reads
`EndIdx_map[fld][left_word - 1]` with C pointer arithmetic, which for
`left_word = 0` is the element before the array. -/
structure KParams where
  alpha : ℚ
  size : ℕ
  negative : ℕ
  cumTable : ℕ → ℕ
  cumTableLen : ℕ
  indexes : ℕ → ℕ
  useHead : ℕ
  useSub : ℕ
  lookUp : ℕ → ℕ → ℕ
  endIdx : ℕ → ℤ → ℕ
  lengInv : ℕ → ℕ → ℚ
  wordLocks : ℕ → ℚ
  cbowMean : ℕ
  computeLoss : ℕ
  expTable : ℕ → ℚ
  logTable : ℕ → ℚ

/-- mutable state threaded through one per-token update call:
the per-field input matrices `syn0_map`, the output matrix `syn1neg`,
the caller scratch buffers `neu1`/`work`, the running loss and the PRNG
state. -/
structure KState where
  syn0 : ℕ → Vec
  syn1neg : Vec
  neu1 : Vec
  work : Vec
  loss : ℚ
  rng : ℕ

/-- saturation test `f_dot <= -MAX_EXP or f_dot >= MAX_EXP` from the source. -/
def saturated (f : ℚ) : Prop := f ≤ -MAX_EXP ∨ MAX_EXP ≤ f

instance (f : ℚ) : Decidable (saturated f) := by
  unfold saturated; infer_instance

/-- sigmoid-table index `<int>((f_dot + MAX_EXP) * (EXP_TABLE_SIZE / MAX_EXP / 2))`;
the factor `EXP_TABLE_SIZE / MAX_EXP / 2` is C integer arithmetic on the
compile-time constants, `1000 / 6 / 2 = 83`. -/
def sigIndex (f : ℚ) : ℕ := (Int.floor ((f + MAX_EXP) * 83)).toNat

/-- context positions of the window `[j, k)` with the target position `i`
removed (the set over which every `for m in range(j, k): if m == i: continue`
loop in the kernels runs). -/
def ctxPositions (i j k : ℕ) : List ℕ :=
  (List.range' j (k - j)).filter (fun m => m ≠ i)

/-- the `count` variable of the kernels: number of context positions. -/
def ctxCount (i j k : ℕ) : ℕ := (ctxPositions i j k).length

/-- the `inv_count` variable: `1/count` when `count > 0.5`, else `1.0`. -/
def invCountOf (i j k : ℕ) : ℚ :=
  if (1 / 2 : ℚ) < (ctxCount i j k : ℚ) then 1 / (ctxCount i j k : ℚ) else 1

/-! ## Field aggregation (identical statement sequence in both kernels) -/

/-- inner loop of the sub-field aggregation for one context token at
position `m`: locate the sub-unit slice `[EndIdx[lw-1], EndIdx[lw])` and
accumulate `LengInv[lw] * syn0[LookUp[n]]` into the `fld` segment of `neu1`. -/
def subAggToken (p : KParams) (fld : ℕ) (syn0f : Vec) (neu1 : Vec) (m : ℕ) : Vec :=
  let lw := p.indexes m
  let linv := p.lengInv fld lw
  let gs := p.endIdx fld ((lw : ℤ) - 1)
  let ge := p.endIdx fld lw
  (List.range' gs (ge - gs)).foldl
    (fun acc n => our_saxpy p.size linv syn0f (p.lookUp fld n * p.size) acc (fld * p.size))
    neu1

/-- sub-field aggregation block: loop over the window, skip the target,
then scale the segment by `inv_count`. -/
def subAggregate (p : KParams) (fld : ℕ) (syn0f : Vec) (i j k : ℕ) (invCount : ℚ)
    (neu1 : Vec) : Vec :=
  let acc := (List.range' j (k - j)).foldl
    (fun acc m => if m = i then acc else subAggToken p fld syn0f acc m) neu1
  sscal p.size invCount acc (fld * p.size)

/-- head-field aggregation block: accumulate `syn0[indexes[m]]` with
coefficient `1.0` over the window, skip the target, scale by `inv_count`. -/
def headAggregate (p : KParams) (fld : ℕ) (syn0f : Vec) (i j k : ℕ) (invCount : ℚ)
    (neu1 : Vec) : Vec :=
  let acc := (List.range' j (k - j)).foldl
    (fun acc m =>
      if m = i then acc
      else our_saxpy p.size 1 syn0f (p.indexes m * p.size) acc (fld * p.size)) neu1
  sscal p.size invCount acc (fld * p.size)

/-! ## Negative-sampling draw (identical in both kernels) -/

/-- target selection for step `d` of the `for d in range(negative+1)` loop:
`d = 0` is the true word with label 1; `d > 0` draws via `bisect_left` on
the pre-advance `next_random >> 16`, advances the PRNG, and yields `none`
(the `continue`) when the draw equals the true word. -/
def drawTarget (p : KParams) (wordIndex : ℕ) (rng : ℕ) (d : ℕ) :
    Option (ℕ × ℚ) × ℕ :=
  if d = 0 then (some (wordIndex, 1), rng)
  else
    let ti := bisect_left p.cumTable ((rng >>> 16) % p.cumTable (p.cumTableLen - 1))
      0 p.cumTableLen
    let rng1 := advanceRng rng
    if ti = wordIndex then (none, rng1) else (some (ti, 0), rng1)

/-! ## `fieldembed_token_neg_0X1_neat`: negative-sampling loop -/

/-- loop-carried state of the `for d in range(negative+1)` loop of
`fieldembed_token_neg_0X1_neat`: the `work` buffer, `syn1neg`, the running
loss and the PRNG state. -/
structure DState where
  work : Vec
  syn1neg : Vec
  loss : ℚ
  rng : ℕ

/-- one iteration of the `d` loop of `fieldembed_token_neg_0X1_neat`,
mirroring the source statement by statement; in particular, when
`compute_loss == 1` the local `f_dot` is overwritten with the signed value
before both saturation checks and before the `EXP_TABLE` lookup, and every
`continue` abandons the whole iteration (head block and the `syn1neg`
update phase included). -/
def neatStep (p : KParams) (wordIndex : ℕ) (neu1 : Vec) (st : DState) (d : ℕ) : DState :=
  match drawTarget p wordIndex st.rng d with
  | (none, rng1) => { st with rng := rng1 }
  | (some (target, label), rng1) =>
    let st0 : DState := { st with rng := rng1 }
    let row2 := target * p.size
    let fldH := if p.useSub ≠ 0 then 1 else 0
    -- sub-field block
    let subRes : Option (ℚ × DState) :=
      if p.useSub ≠ 0 then
        let fdot0 := our_dot p.size neu1 0 st0.syn1neg row2
        let fdot := if p.computeLoss = 1 then (if d = 0 then fdot0 else -fdot0) else fdot0
        if saturated fdot then none
        else
          let st1 := if p.computeLoss = 1 then
              { st0 with loss := st0.loss - p.logTable (sigIndex fdot) } else st0
          let f := p.expTable (sigIndex fdot)
          let g2 := (label - f) * p.alpha
          some (g2, { st1 with work := our_saxpy p.size g2 st1.syn1neg row2 st1.work 0 })
      else some (0, st0)
    match subRes with
    | none => st0
    | some (g2, st1) =>
      -- head-field block
      let headRes : Option (ℚ × DState) :=
        if p.useHead ≠ 0 then
          let fdot0 := our_dot p.size neu1 (fldH * p.size) st1.syn1neg row2
          let fdot := if p.computeLoss = 1 then (if d = 0 then fdot0 else -fdot0) else fdot0
          if saturated fdot then none
          else
            let st2 := if p.computeLoss = 1 then
                { st1 with loss := st1.loss - p.logTable (sigIndex fdot) } else st1
            let f := p.expTable (sigIndex fdot)
            let g := (label - f) * p.alpha
            some (g, { st2 with
              work := our_saxpy p.size g st2.syn1neg row2 st2.work (fldH * p.size) })
        else some (0, st1)
      match headRes with
      | none => st1
      | some (g, st2) =>
        -- update syn1neg from the pre-update projections
        let st3 := if p.useSub ≠ 0 then
            { st2 with syn1neg := our_saxpy p.size g2 neu1 0 st2.syn1neg row2 } else st2
        if p.useHead ≠ 0 then
          { st3 with syn1neg := our_saxpy p.size g neu1 (fldH * p.size) st3.syn1neg row2 }
        else st3

/-- gradient rescaling block (`if cbow_mean: sscal(work ...)`),
shared verbatim by both kernels. -/
def gradScale (p : KParams) (invCount : ℚ) (work : Vec) : Vec :=
  if p.cbowMean ≠ 0 then
    let fldH := if p.useSub ≠ 0 then 1 else 0
    let w1 := if p.useSub ≠ 0 then sscal p.size invCount work 0 else work
    if p.useHead ≠ 0 then sscal p.size invCount w1 (fldH * p.size) else w1
  else work

/-- sub-field scatter block, shared by both kernels; `excl` is whatever the
local variable `i` holds when the loop runs (`fieldembed_negsamp` reaches it
with `i` clobbered by its inner `for i in range(use_sub)` loop). -/
def scatterSub (p : KParams) (fld excl j k : ℕ) (work : Vec) (syn0f : Vec) : Vec :=
  (List.range' j (k - j)).foldl
    (fun acc m =>
      if m = excl then acc
      else
        let lw := p.indexes m
        let linv := p.lengInv fld lw
        let gs := p.endIdx fld ((lw : ℤ) - 1)
        let ge := p.endIdx fld lw
        (List.range' gs (ge - gs)).foldl
          (fun a2 n => our_saxpy p.size linv work (fld * p.size) a2 (p.lookUp fld n * p.size))
          acc)
    syn0f

/-- head-field scatter block, shared by both kernels (same remark on `excl`). -/
def scatterHead (p : KParams) (fld excl j k : ℕ) (work : Vec) (syn0f : Vec) : Vec :=
  (List.range' j (k - j)).foldl
    (fun acc m =>
      if m = excl then acc
      else our_saxpy p.size (p.wordLocks (p.indexes m)) work (fld * p.size) acc
        (p.indexes m * p.size))
    syn0f

/-- embedding of `fieldembed_token_neg_0X1_neat`: aggregation, the
negative-sampling loop, gradient rescaling and the scatter phase, with the
target position `i` and window `[j, k)`. -/
def fieldembed_token_neg_0X1_neat (p : KParams) (i j k : ℕ) (st : KState) : KState :=
  let wordIndex := p.indexes i
  let invCount := invCountOf i j k
  let projNum := p.useHead + p.useSub
  let fldH := if p.useSub ≠ 0 then 1 else 0
  let neu0 := memsetZero st.neu1 0 (projNum * p.size)
  let neu1 := if p.useSub ≠ 0 then subAggregate p 0 (st.syn0 0) i j k invCount neu0 else neu0
  let neu2 := if p.useHead ≠ 0 then headAggregate p fldH (st.syn0 fldH) i j k invCount neu1
    else neu1
  let work0 := memsetZero st.work 0 (projNum * p.size)
  let dRes := (List.range (p.negative + 1)).foldl (neatStep p wordIndex neu2)
    ⟨work0, st.syn1neg, st.loss, st.rng⟩
  let workS := gradScale p invCount dRes.work
  let syn0sub := scatterSub p 0 i j k workS (st.syn0 0)
  let syn0head := scatterHead p fldH i j k workS (st.syn0 fldH)
  { syn0 := fun f =>
      if p.useSub ≠ 0 ∧ f = 0 then syn0sub
      else if p.useHead ≠ 0 ∧ f = fldH then syn0head
      else st.syn0 f,
    syn1neg := dRes.syn1neg,
    neu1 := neu2,
    work := workS,
    loss := dRes.loss,
    rng := dRes.rng }

/-! ## `fieldembed_negsamp`: negative-sampling loop -/

/-- loop-carried state of the `d` loop of `fieldembed_negsamp`: in addition
to the `work`/`syn1neg`/loss/PRNG state it carries the stack array
`g[proj_num]` (`gArr`, whose entries persist across iterations and start
out as uninitialised memory) and the local variable `i` (`iVar`), which the
inner `for i in range(use_sub)` loop overwrites. -/
structure NState where
  work : Vec
  syn1neg : Vec
  loss : ℚ
  rng : ℕ
  gArr : ℕ → ℚ
  iVar : ℕ

/-- the inner `for i in range(use_sub)` loop of `fieldembed_negsamp`:
field index `ii` runs over `0 .. use_sub - 1` (clobbering the variable `i`),
a saturated dot product skips only the rest of that inner iteration, and
the loss is accumulated after `g[fld]` is set, from the sign-adjusted value. -/
def negSubInner (p : KParams) (label : ℚ) (d : ℕ) (neu1 : Vec) (row2 : ℕ)
    (st : NState) : NState :=
  (List.range p.useSub).foldl
    (fun s ii =>
      let s1 : NState := { s with iVar := ii }
      let fdot := our_dot p.size neu1 (ii * p.size) s1.syn1neg row2
      if saturated fdot then s1
      else
        let f := p.expTable (sigIndex fdot)
        let gv := (label - f) * p.alpha
        let s2 : NState := { s1 with gArr := Function.update s1.gArr ii gv }
        let s3 : NState := if p.computeLoss = 1 then
            let fdotL := if d = 0 then fdot else -fdot
            { s2 with loss := s2.loss - p.logTable (sigIndex fdotL) }
          else s2
        { s3 with work := our_saxpy p.size gv s3.syn1neg row2 s3.work (ii * p.size) })
    st

/-- the `syn1neg` update phase of `fieldembed_negsamp`: it re-derives the
field indices (`0` for sub, `1` past sub) and reads whatever `g[fld]`
currently holds, saturated or not. -/
def negPhase2 (p : KParams) (neu1 : Vec) (row2 : ℕ) (st : NState) : NState :=
  let st1 := if p.useSub ≠ 0 then
      { st with syn1neg := our_saxpy p.size (st.gArr 0) neu1 0 st.syn1neg row2 } else st
  let fldH := if p.useSub ≠ 0 then 1 else 0
  if p.useHead ≠ 0 then
    { st1 with syn1neg := our_saxpy p.size (st1.gArr fldH) neu1 (fldH * p.size) st1.syn1neg row2 }
  else st1

/-- one iteration of the `d` loop of `fieldembed_negsamp`: the head block
stores `g` at index `use_sub` and its saturation `continue` abandons the
whole iteration (the `syn1neg` phase included), while a saturated sub field
only skips its own inner iteration. -/
def negStep (p : KParams) (wordIndex : ℕ) (neu1 : Vec) (st : NState) (d : ℕ) : NState :=
  match drawTarget p wordIndex st.rng d with
  | (none, rng1) => { st with rng := rng1 }
  | (some (target, label), rng1) =>
    let st0 : NState := { st with rng := rng1 }
    let row2 := target * p.size
    let st1 := if p.useSub ≠ 0 then negSubInner p label d neu1 row2 st0 else st0
    if p.useHead ≠ 0 then
      let fldH := p.useSub
      let fdot := our_dot p.size neu1 (fldH * p.size) st1.syn1neg row2
      if saturated fdot then st1
      else
        let f := p.expTable (sigIndex fdot)
        let gv := (label - f) * p.alpha
        let st2 : NState := { st1 with gArr := Function.update st1.gArr fldH gv }
        let st3 : NState := if p.computeLoss = 1 then
            let fdotL := if d = 0 then fdot else -fdot
            { st2 with loss := st2.loss - p.logTable (sigIndex fdotL) }
          else st2
        let st4 : NState :=
          { st3 with work := our_saxpy p.size gv st3.syn1neg row2 st3.work (fldH * p.size) }
        negPhase2 p neu1 row2 st4
    else negPhase2 p neu1 row2 st1

/-- embedding of `fieldembed_negsamp`: same aggregation and scatter blocks
as the neat variant, but the `d` loop is `negStep` and the scatter excludes
whatever the variable `i` holds after the loop (`iVar`), not the target
position.  `gInit` models the indeterminate initial contents of the stack
array `g[proj_num]`. -/
def fieldembed_negsamp (p : KParams) (i j k : ℕ) (gInit : ℕ → ℚ) (st : KState) : KState :=
  let wordIndex := p.indexes i
  let invCount := invCountOf i j k
  let projNum := p.useHead + p.useSub
  let fldH := if p.useSub ≠ 0 then 1 else 0
  let neu0 := memsetZero st.neu1 0 (projNum * p.size)
  let neu1 := if p.useSub ≠ 0 then subAggregate p 0 (st.syn0 0) i j k invCount neu0 else neu0
  let neu2 := if p.useHead ≠ 0 then headAggregate p fldH (st.syn0 fldH) i j k invCount neu1
    else neu1
  let work0 := memsetZero st.work 0 (projNum * p.size)
  let dRes := (List.range (p.negative + 1)).foldl (negStep p wordIndex neu2)
    ⟨work0, st.syn1neg, st.loss, st.rng, gInit, i⟩
  let iF := dRes.iVar
  let workS := gradScale p invCount dRes.work
  let syn0sub := scatterSub p 0 iF j k workS (st.syn0 0)
  let syn0head := scatterHead p fldH iF j k workS (st.syn0 fldH)
  { syn0 := fun f =>
      if p.useSub ≠ 0 ∧ f = 0 then syn0sub
      else if p.useHead ≠ 0 ∧ f = fldH then syn0head
      else st.syn0 f,
    syn1neg := dRes.syn1neg,
    neu1 := neu2,
    work := workS,
    loss := dRes.loss,
    rng := dRes.rng }

/-! ## Batch driver: packing of the working buffers

Both `train_batch_fieldembed_0X1_neat` and `train_batch_fieldembed_negsamp`
contain the identical packing prologue; it is embedded once.  Writes into
the fixed-capacity buffers `c.indexes` / `c.sentence_idx` are recorded as
`(position, value)` pairs so that out-of-capacity writes are observable. -/

/-- observable effects of the packing prologue of a `train_batch` call. -/
structure PackState where
  writes : List (ℕ × ℕ)
  sentWrites : List (ℕ × ℕ)
  effWords : ℕ
  effSents : ℕ
  rng : ℕ

/-- appending one surviving token: `c.indexes[effective_words] = w;
effective_words += 1` (with the PRNG state after any subsampling draw). -/
def pushToken (st : PackState) (w rng1 : ℕ) : PackState :=
  { st with
    writes := st.writes ++ [(st.effWords, w)],
    effWords := st.effWords + 1,
    rng := rng1 }

/-- token loop of the subsampling branch: drop reserved indices `<= 3`;
when `c.sample` holds, draw `random_int32` (always advancing the PRNG) and
drop the token when `sample_int < draw`; append surviving tokens at
position `effective_words`, and break once
`effective_words == MAX_SENTENCE_LEN`. -/
def packTokensSub (sample : Bool) (sampleInt : ℕ → ℕ) : List ℕ → PackState → PackState
  | [], st => st
  | w :: ws, st =>
    if w ≤ 3 then packTokensSub sample sampleInt ws st
    else
      match sample with
      | true =>
        if sampleInt w < (random_int32 st.rng).1 then
          packTokensSub sample sampleInt ws { st with rng := (random_int32 st.rng).2 }
        else
          let st1 := pushToken st w (random_int32 st.rng).2
          if st1.effWords = MAX_SENTENCE_LEN then st1
          else packTokensSub sample sampleInt ws st1
      | false =>
        let st1 := pushToken st w st.rng
        if st1.effWords = MAX_SENTENCE_LEN then st1
        else packTokensSub sample sampleInt ws st1

/-- sentence loop of the subsampling branch: each sentence slice
`indexes[idx_start:idx_end]` is packed, then the running
`effective_words` is recorded at `c.sentence_idx[effective_sentences]`,
and the loop breaks when the token capacity was reached. -/
def packOuterSub (sample : Bool) (sampleInt : ℕ → ℕ) (indexes : List ℕ) :
    List ℕ → ℕ → PackState → PackState
  | [], _, st => st
  | e :: rest, idxStart, st =>
    let slice := (indexes.drop idxStart).take (e - idxStart)
    let st1 := packTokensSub sample sampleInt slice st
    let st2 : PackState := { st1 with
      sentWrites := st1.sentWrites ++ [(st1.effSents, st1.effWords)],
      effSents := st1.effSents + 1 }
    if st2.effWords = MAX_SENTENCE_LEN then st2
    else packOuterSub sample sampleInt indexes rest e st2

/-- initial packing state. -/
def packInit (seed : ℕ) : PackState := ⟨[], [], 0, 0, seed⟩

/-- subsampling-mode packing prologue of a `train_batch` call. -/
def train_batch_pack_sub (sample : Bool) (sampleInt : ℕ → ℕ)
    (indexes sentenceIdx : List ℕ) (seed : ℕ) : PackState :=
  packOuterSub sample sampleInt indexes sentenceIdx 0 (packInit seed)

/-- no-subsampling packing prologue: `effective_words = len(indexes)`,
`effective_sentences = len(sentence_idx)`, and both inputs are copied
verbatim into the work buffers. -/
def train_batch_pack_nosub (indexes sentenceIdx : List ℕ) (seed : ℕ) : PackState :=
  { writes := indexes.enum,
    sentWrites := sentenceIdx.enum,
    effWords := indexes.length,
    effSents := sentenceIdx.length,
    rng := seed }

/-- replay a list of recorded buffer writes over an initial buffer. -/
def applyWrites (ws : List (ℕ × ℕ)) (buf : ℕ → ℕ) : ℕ → ℕ :=
  ws.foldl (fun b pv => Function.update b pv.1 pv.2) buf

/-- target positions visited by the `with nogil` training loop: for each
effective sentence, every position `i` in `[idx_start, idx_end)` becomes a
target of one per-token update. -/
def trainTargets (sentIdxBuf : ℕ → ℕ) (effSents : ℕ) : List ℕ :=
  (List.range effSents).flatMap (fun s =>
    let iStart := if s = 0 then 0 else sentIdxBuf (s - 1)
    let iEnd := sentIdxBuf s
    List.range' iStart (iEnd - iStart))

/-! ## Idealised sigmoid tables (claim C7)

`init()` fills the float tables with transcendental values; those are
idealised over `ℝ`.  `expTableVal` transcribes the source computation
`EXP_TABLE[i] = exp(x); EXP_TABLE[i] = EXP_TABLE[i] / (EXP_TABLE[i] + 1)`,
while `sigmoid` transcribes the documented specification
`sigmoid(x) = 1 / (1 + exp(-x))`. -/

/-- table entry as computed by `init()`:
`exp(x) / (exp(x) + 1)` at `x = (i / EXP_TABLE_SIZE * 2 - 1) * MAX_EXP`. -/
noncomputable def expTableVal (i : ℕ) : ℝ :=
  Real.exp (((i : ℝ) / 1000 * 2 - 1) * 6) / (Real.exp (((i : ℝ) / 1000 * 2 - 1) * 6) + 1)

/-- table entry `LOG_TABLE[i] = log(EXP_TABLE[i])` as computed by `init()`. -/
noncomputable def logTableVal (i : ℕ) : ℝ := Real.log (expTableVal i)

/-- the sigmoid function named by the specification. -/
noncomputable def sigmoid (x : ℝ) : ℝ := 1 / (1 + Real.exp (-x))

/-- step table `[4, 5]` used to refute the boundary corollaries of C5. -/
def stepTable54 : ℕ → ℕ := fun n => if n = 0 then 4 else 5

/-- step table `[3, 5]` used as a witness input for C5. -/
def stepTable35 : ℕ → ℕ := fun n => if n = 0 then 3 else 5

/-! ## Concrete kernel inputs used in evaluations

`size = 1`, `negative = 0`, loss tracking off, constant sigmoid table
`1/2`, token layout: position `0` holds token `4` (sub-unit slice `{3}`),
position `1` holds token `5` (sub-unit slice `{4}`). -/

/-- small concrete parameter set with only the sub field active. -/
def exP_subOnly : KParams :=
  { alpha := 1, size := 1, negative := 0,
    cumTable := fun _ => 1, cumTableLen := 1,
    indexes := fun m => if m = 0 then 4 else if m = 1 then 5 else 0,
    useHead := 0, useSub := 1,
    lookUp := fun _ n => n,
    endIdx := fun _ t => t.toNat,
    lengInv := fun _ _ => 1,
    wordLocks := fun _ => 1,
    cbowMean := 0, computeLoss := 0,
    expTable := fun _ => 1 / 2, logTable := fun _ => 0 }

/-- same parameters with both the sub and the head field active. -/
def exP_subHead : KParams := { exP_subOnly with useHead := 1 }

/-- state with all-zero embeddings except `syn1neg` row 5 = `[2]`. -/
def exS_zero : KState :=
  { syn0 := fun _ => fun _ => 0,
    syn1neg := fun q => if q = 5 then 2 else 0,
    neu1 := fun _ => 0, work := fun _ => 0, loss := 0, rng := 0 }

/-- state whose sub grain `3` holds `[3]` and head row `4` holds `[1]`,
with `syn1neg` row 5 = `[2]`: the sub projection of token 4 then saturates
(`f_dot = 6`) while the head projection does not (`f_dot = 2`). -/
def exS_sat : KState :=
  { syn0 := fun f => fun q =>
      if f = 0 ∧ q = 3 then 3 else if f = 1 ∧ q = 4 then 1 else 0,
    syn1neg := fun q => if q = 5 then 2 else 0,
    neu1 := fun _ => 0, work := fun _ => 0, loss := 0, rng := 0 }

/-- concrete parameters whose only context token (position 0) is the
reserved vocabulary index `0`. -/
def exP_ctx0 : KParams :=
  { exP_subOnly with
    indexes := fun m => if m = 0 then 0 else if m = 1 then 4 else 0,
    endIdx := fun _ t => if t < 0 then 0 else if t = 0 then 1 else t.toNat + 1 }

/-- an `EndIdx` table agreeing with `exP_ctx0.endIdx` on every index
`t ≥ 0` and differing only before the start of the array. -/
def exE_alt : ℕ → ℤ → ℕ :=
  fun _ t => if t = -1 then 1 else if t < 0 then 0 else if t = 0 then 1 else t.toNat + 1

/-- state giving grain 0 the value `[1]` and `syn1neg` row 4 the value `[2]`. -/
def exS_ctx0 : KState :=
  { syn0 := fun f => fun q => if f = 0 ∧ q = 0 then 1 else 0,
    syn1neg := fun q => if q = 4 then 2 else 0,
    neu1 := fun _ => 0, work := fun _ => 0, loss := 0, rng := 0 }

/-- an `EndIdx` table agreeing with `exP_subOnly.endIdx` on `[0, 6)` and
arbitrary (77) before the array start. -/
def exE_pad : ℕ → ℤ → ℕ := fun _ t => if t < 0 then 77 else t.toNat

/-! ## Variant agreement (claim C2) -/

/-- relation between the loop states of the two negative-sampling loops:
all observable components agree (`fieldembed_negsamp` additionally carries
the stack array `g` and the clobbered variable `i`). -/
def DNRel (s1 : DState) (s2 : NState) : Prop :=
  s1.work = s2.work ∧ s1.syn1neg = s2.syn1neg ∧ s1.loss = s2.loss ∧ s1.rng = s2.rng

/-- concrete parameter set with only the head field active. -/
def exP_headOnly : KParams := { exP_subOnly with useSub := 0, useHead := 1 }

/-- unfolding equation for one `bisect_left` loop iteration. -/
theorem bisectGo_succ (a : ℕ → ℕ) (x fuel lo hi : ℕ) :
    bisectGo a x (fuel + 1) lo hi =
      if lo < hi then
        (if x ≤ a ((lo + hi) / 2) then bisectGo a x fuel lo ((lo + hi) / 2)
         else bisectGo a x fuel ((lo + hi) / 2 + 1) hi)
      else lo := rfl

/-- unfolding equation for a kept-or-pushed token without subsampling draws. -/
theorem packTokensSub_cons_false (sInt : ℕ → ℕ) (w : ℕ) (ws : List ℕ) (st : PackState)
    (h1 : ¬ w ≤ 3) :
    packTokensSub false sInt (w :: ws) st =
      (if (pushToken st w st.rng).effWords = MAX_SENTENCE_LEN then pushToken st w st.rng
       else packTokensSub false sInt ws (pushToken st w st.rng)) := by
  simp only [packTokensSub]
  rw [if_neg h1]

/-- unfolding equation for a non-reserved token with subsampling active. -/
theorem packTokensSub_cons_true (sInt : ℕ → ℕ) (w : ℕ) (ws : List ℕ) (st : PackState)
    (h1 : ¬ w ≤ 3) :
    packTokensSub true sInt (w :: ws) st =
      (if sInt w < (random_int32 st.rng).1 then
        packTokensSub true sInt ws { st with rng := (random_int32 st.rng).2 }
      else
        if (pushToken st w (random_int32 st.rng).2).effWords = MAX_SENTENCE_LEN then
          pushToken st w (random_int32 st.rng).2
        else packTokensSub true sInt ws (pushToken st w (random_int32 st.rng).2)) := by
  simp only [packTokensSub]
  rw [if_neg h1]

/-! ## General lemmas -/

/-- the binary-search loop body is a lower-bound search: given enough fuel,
a monotone table on `[0, N)`, and the bracketing invariants, the result
separates the entries `< x` from the entries `≥ x`. -/
theorem bisectGo_spec (a : ℕ → ℕ) (x : ℕ) (N : ℕ)
    (hmono : ∀ i j, i ≤ j → j < N → a i ≤ a j) :
    ∀ fuel lo hi, hi - lo ≤ fuel → lo ≤ hi → hi ≤ N →
      (∀ t, t < lo → a t < x) → (∀ t, hi ≤ t → t < N → x ≤ a t) →
      (∀ t, t < bisectGo a x fuel lo hi → a t < x) ∧
      (∀ t, bisectGo a x fuel lo hi ≤ t → t < N → x ≤ a t) ∧
      lo ≤ bisectGo a x fuel lo hi ∧ bisectGo a x fuel lo hi ≤ hi := by
  intro fuel
  induction fuel with
  | zero =>
    intro lo hi hf hlo hhi hbelow habove
    have heq : hi = lo := by omega
    subst heq
    exact ⟨hbelow, habove, le_refl _, le_refl _⟩
  | succ n ih =>
    intro lo hi hf hlo hhi hbelow habove
    by_cases h : lo < hi
    · have hmidlt : (lo + hi) / 2 < hi := by
        apply Nat.div_lt_of_lt_mul; omega
      have hmidge : lo ≤ (lo + hi) / 2 := by
        apply (Nat.le_div_iff_mul_le (by norm_num)).mpr; omega
      by_cases hx : x ≤ a ((lo + hi) / 2)
      · have hres : bisectGo a x (n + 1) lo hi = bisectGo a x n lo ((lo + hi) / 2) := by
          rw [bisectGo_succ, if_pos h, if_pos hx]
        rw [hres]
        have h1 := ih lo ((lo + hi) / 2) (by omega) hmidge (by omega) hbelow
          (fun t hmt htN => le_trans hx (hmono _ t hmt htN))
        exact ⟨h1.1, h1.2.1, h1.2.2.1, le_trans h1.2.2.2 (le_of_lt hmidlt)⟩
      · push_neg at hx
        have hres : bisectGo a x (n + 1) lo hi = bisectGo a x n ((lo + hi) / 2 + 1) hi := by
          rw [bisectGo_succ, if_pos h, if_neg (by omega)]
        rw [hres]
        have h1 := ih ((lo + hi) / 2 + 1) hi (by omega) (by omega) hhi
          (fun t ht => lt_of_le_of_lt (hmono t _ (by omega) (by omega)) hx) habove
        exact ⟨h1.1, h1.2.1, le_trans (by omega) h1.2.2.1, h1.2.2.2⟩
    · have hres : bisectGo a x (n + 1) lo hi = lo := by
        rw [bisectGo_succ, if_neg h]
      rw [hres]
      exact ⟨hbelow, fun t ht htN => habove t (by omega) htN, le_refl _, hlo⟩

/-- C5 (amended): for every non-decreasing cumulative table of length
`N ≥ 1` and every `r < table[N-1]`, `bisect_left(table, r, 0, N)` returns the
smallest index `idx` with `table[idx] ≥ r` (lower-bound semantics).  The
original corollaries do not follow: for `r = 0` the result is `0` (the
smallest index with `table[idx] ≥ 0`), not necessarily the first
nonzero-width bucket, and for `r = table[N-1] - 1` the result is `N-1` only
when every earlier entry is below `r`. -/
theorem claim_C5 (a : ℕ → ℕ) (N x : ℕ) (hN : 1 ≤ N)
    (hmono : ∀ i j, i ≤ j → j < N → a i ≤ a j) (hx : x < a (N - 1)) :
    bisect_left a x 0 N < N ∧ x ≤ a (bisect_left a x 0 N) ∧
      ∀ t, t < bisect_left a x 0 N → a t < x := by
  have h := bisectGo_spec a x N hmono N 0 N (by omega) (by omega) (le_refl N)
    (fun t ht => absurd ht (by omega))
    (fun t ht htN => absurd (lt_of_le_of_lt ht htN) (lt_irrefl N))
  unfold bisect_left
  rw [Nat.sub_zero]
  obtain ⟨hb, habv, -, hle⟩ := h
  have hrN : bisectGo a x N 0 N < N := by
    rcases lt_or_eq_of_le hle with hlt | heq
    · exact hlt
    · exfalso
      have := hb (N - 1) (by omega)
      omega
  exact ⟨hrN, habv _ (le_refl _) hrN, hb⟩

/-- C5 counterexample: the non-decreasing table `[4, 5]` has `N = 2` and
total mass `5`; for `r = table[N-1] - 1 = 4` the code returns index `0`
(the smallest index with `table[idx] ≥ 4`), not `N - 1 = 1` as the claim
states. -/
theorem claim_C5_counterexample :
    (∀ i, i < 2 → ∀ j, j < 2 → i ≤ j → stepTable54 i ≤ stepTable54 j) ∧
    4 = stepTable54 (2 - 1) - 1 ∧
    bisect_left stepTable54 4 0 2 = 0 ∧ (0 : ℕ) ≠ 2 - 1 := by
  refine ⟨by decide, by decide, by decide, by decide⟩

/-- witness for C5 on the table `[3, 5]` with `r = 4`. -/
theorem claim_C5_witness :
    bisect_left stepTable35 4 0 2 < 2 ∧ 4 ≤ stepTable35 (bisect_left stepTable35 4 0 2) ∧
      ∀ t, t < bisect_left stepTable35 4 0 2 → stepTable35 t < 4 :=
  claim_C5 stepTable35 2 4 (by omega)
    (by
      intro i j hij hj
      unfold stepTable35
      split_ifs <;> omega)
    (by decide)

/-- C6: every PRNG step advances the state by
`state * 25214903917 + 11 (mod 2^48)` (the source mask
`& 281474976710655` is exactly reduction mod `2^48`), the value handed to
the consumer is the pre-advance state shifted right by 16 bits — both in
`random_int32` and in the negative-sampling draw of the kernels — and the
sequence of draw values is a pure function of the seed. -/
theorem claim_C6 :
    (∀ s : ℕ, (random_int32 s).1 = s >>> 16 ∧
      (random_int32 s).2 = (s * 25214903917 + 11) % 2 ^ 48) ∧
    (∀ (p : KParams) (w rng d : ℕ), d ≠ 0 →
      (drawTarget p w rng d).2 = (rng * 25214903917 + 11) % 2 ^ 48 ∧
      (drawTarget p w rng d).1 =
        (if bisect_left p.cumTable
            ((random_int32 rng).1 % p.cumTable (p.cumTableLen - 1)) 0 p.cumTableLen = w
         then none
         else some (bisect_left p.cumTable
            ((random_int32 rng).1 % p.cumTable (p.cumTableLen - 1)) 0 p.cumTableLen,
            (0 : ℚ)))) ∧
    (∀ seed n : ℕ, nthDraw seed n = prngStream seed n >>> 16) := by
  have hmask : ∀ s : ℕ, advanceRng s = (s * 25214903917 + 11) % 2 ^ 48 := by
    intro s
    unfold advanceRng
    have h : (281474976710655 : ℕ) = 2 ^ 48 - 1 := by norm_num
    rw [h, Nat.and_pow_two_sub_one_eq_mod]
  refine ⟨fun s => ⟨rfl, hmask s⟩, ?_, fun seed n => rfl⟩
  intro p w rng d hd
  have hr : ((random_int32 rng).1 : ℕ) = rng >>> 16 := rfl
  simp only [drawTarget, hd, if_false, hr]
  constructor
  · split <;> exact hmask rng
  · split <;> rfl

/-- witness for C6 at a concrete draw step. -/
theorem claim_C6_witness :
    (drawTarget
      { alpha := 1, size := 1, negative := 0, cumTable := fun _ => 1, cumTableLen := 1,
        indexes := fun _ => 0, useHead := 0, useSub := 0, lookUp := fun _ n => n,
        endIdx := fun _ t => t.toNat, lengInv := fun _ _ => 1, wordLocks := fun _ => 1,
        cbowMean := 0, computeLoss := 0, expTable := fun _ => 0, logTable := fun _ => 0 }
      0 7 1).2 = (7 * 25214903917 + 11) % 2 ^ 48 :=
  (claim_C6.2.1 _ 0 7 1 (by decide)).1

/-- C7: `init()` fills `EXP_TABLE[i]` with
`sigmoid((i/TABLE_SIZE * 2 - 1) * MAX_EXP)` and `LOG_TABLE[i]` with its
logarithm, for `TABLE_SIZE = 1000`, `MAX_EXP = 6`; and for every dot
product strictly inside `(-MAX_EXP, MAX_EXP)` the lookup index used by the
update routines, `sigIndex`, is a valid table index (the scale factor
`EXP_TABLE_SIZE / MAX_EXP / 2` is the C integer `83`). -/
theorem claim_C7 :
    (EXP_TABLE_SIZE = 1000 ∧ MAX_EXP = 6) ∧
    (∀ i : ℕ, expTableVal i = sigmoid (((i : ℝ) / EXP_TABLE_SIZE * 2 - 1) * 6)) ∧
    (∀ i : ℕ, logTableVal i = Real.log (sigmoid (((i : ℝ) / EXP_TABLE_SIZE * 2 - 1) * 6))) ∧
    (∀ f : ℚ, -MAX_EXP < f → f < MAX_EXP → sigIndex f < EXP_TABLE_SIZE) := by
  have hsig : ∀ x : ℝ, Real.exp x / (Real.exp x + 1) = sigmoid x := by
    intro x
    unfold sigmoid
    rw [Real.exp_neg]
    have h1 : Real.exp x ≠ 0 := ne_of_gt (Real.exp_pos x)
    have h2 : Real.exp x + 1 ≠ 0 := by positivity
    field_simp
  have htab : ∀ i : ℕ, expTableVal i = sigmoid (((i : ℝ) / EXP_TABLE_SIZE * 2 - 1) * 6) := by
    intro i
    unfold expTableVal EXP_TABLE_SIZE
    push_cast
    exact hsig _
  refine ⟨⟨rfl, rfl⟩, htab, fun i => by rw [logTableVal, htab i], ?_⟩
  intro f h1 h2
  unfold sigIndex EXP_TABLE_SIZE
  unfold MAX_EXP at h1 h2 ⊢
  have h3 : (f + 6) * 83 < 996 := by nlinarith
  have h4 : Int.floor ((f + 6) * 83) < 996 := by
    apply Int.floor_lt.mpr
    push_cast
    linarith
  omega

/-- witness for C7 at `f_dot = 0`: the lookup index is `498 < 1000`. -/
theorem claim_C7_witness : sigIndex 0 < EXP_TABLE_SIZE :=
  claim_C7.2.2.2 0 (by norm_num [MAX_EXP]) (by norm_num [MAX_EXP])

/-- C9: in sub-field aggregation (the per-token block shared verbatim by
both kernels), a context token whose sub-unit slice is empty
(`EndIdx[t] == EndIdx[t-1]`) contributes exactly nothing to `neu1`, and
the result does not depend on its `LengInv` entry at all (the value is
read as a multiplier, never a divisor, and the empty loop never applies it). -/
theorem claim_C9 (p : KParams) (fld : ℕ) (syn0f neu1 : Vec) (m : ℕ)
    (h : p.endIdx fld ((p.indexes m : ℤ) - 1) = p.endIdx fld (p.indexes m)) :
    subAggToken p fld syn0f neu1 m = neu1 ∧
      ∀ linv : ℕ → ℕ → ℚ, subAggToken { p with lengInv := linv } fld syn0f neu1 m = neu1 := by
  constructor
  · simp only [subAggToken]
    rw [h, Nat.sub_self]
    rfl
  · intro linv
    simp only [subAggToken]
    rw [show ({ p with lengInv := linv } : KParams).endIdx = p.endIdx from rfl,
      show ({ p with lengInv := linv } : KParams).indexes = p.indexes from rfl, h, Nat.sub_self]
    rfl

/-- witness for C9: a token whose slice is empty leaves a concrete `neu1`
untouched. -/
theorem claim_C9_witness :
    subAggToken
      { alpha := 1, size := 1, negative := 0, cumTable := fun _ => 1, cumTableLen := 1,
        indexes := fun _ => 4, useHead := 0, useSub := 1, lookUp := fun _ n => n,
        endIdx := fun _ _ => 7, lengInv := fun _ _ => 1, wordLocks := fun _ => 1,
        cbowMean := 0, computeLoss := 0, expTable := fun _ => 0, logTable := fun _ => 0 }
      0 (fun _ => 3) (fun _ => 5) 0 = (fun _ => 5) :=
  (claim_C9 _ 0 (fun _ => 3) (fun _ => 5) 0 rfl).1

/-- C1 (evaluation at the failing input): with window `[0, 1)` around
target position `1`, the sub-field dot product at `d = 0` is `6`
(saturated) while the head-field dot product is `2` (not saturated, with a
nonzero gradient `(1 - 1/2) * 1`); nevertheless the `continue` in
`fieldembed_token_neg_0X1_neat` abandons the whole `d = 0` iteration, so
the head field receives no work-buffer accumulation and `syn1neg` row 5 is
left unchanged — the claimed per-(field, d) skip does not happen. -/
theorem claim_C1 :
    saturated (our_dot exP_subHead.size
      (fieldembed_token_neg_0X1_neat exP_subHead 1 0 1 exS_sat).neu1 0 exS_sat.syn1neg 5) ∧
    our_dot exP_subHead.size
      (fieldembed_token_neg_0X1_neat exP_subHead 1 0 1 exS_sat).neu1 1 exS_sat.syn1neg 5 = 2 ∧
    ¬ saturated 2 ∧
    (fieldembed_token_neg_0X1_neat exP_subHead 1 0 1 exS_sat).work 1 = 0 ∧
    (fieldembed_token_neg_0X1_neat exP_subHead 1 0 1 exS_sat).syn1neg 5 =
      exS_sat.syn1neg 5 := by
  refine ⟨?_, by with_unfolding_all rfl, ?_, by with_unfolding_all rfl,
    by with_unfolding_all rfl⟩
  · have h : our_dot exP_subHead.size
        (fieldembed_token_neg_0X1_neat exP_subHead 1 0 1 exS_sat).neu1 0
        exS_sat.syn1neg 5 = 6 := by with_unfolding_all rfl
    rw [h]
    right
    norm_num [MAX_EXP]
  · intro h
    rcases h with h | h <;> norm_num [MAX_EXP] at h

/-- C2 counterexample: on one identical input (window `[0, 2)`, target
position `1`, `use_sub = 1`, `use_head = 0`, loss off), the two kernel
variants leave the sub-field matrix in different states: the neat variant
updates the context token 4 (grain 3), while `fieldembed_negsamp` — whose
inner `for i in range(use_sub)` loop clobbers the target position —
updates the target token 5 (grain 4) instead. -/
theorem claim_C2_counterexample :
    (fieldembed_token_neg_0X1_neat exP_subOnly 1 0 2 exS_zero).syn0 0 3 = 1 ∧
    (fieldembed_negsamp exP_subOnly 1 0 2 (fun _ => 0) exS_zero).syn0 0 3 = 0 ∧
    (fieldembed_token_neg_0X1_neat exP_subOnly 1 0 2 exS_zero).syn0 0 4 = 0 ∧
    (fieldembed_negsamp exP_subOnly 1 0 2 (fun _ => 0) exS_zero).syn0 0 4 = 1 := by
  refine ⟨by with_unfolding_all rfl, by with_unfolding_all rfl,
    by with_unfolding_all rfl, by with_unfolding_all rfl⟩

/-- C8 (evaluation at the failing input): one `fieldembed_negsamp` call
with window `[0, 2)` and target position `1` (context tokens = `[4]` only)
rewrites the head row of token `5` — the target, not a context token — and
of its sub-unit grain `4`, while leaving the context token 4's head row
and grain `3` untouched: the scatter loop excludes position `0` (the
clobbered loop variable `i`) instead of the target position. -/
theorem claim_C8 :
    ctxPositions 1 0 2 = [0] ∧ exP_subHead.indexes 0 = 4 ∧ exP_subHead.indexes 1 = 5 ∧
    (fieldembed_negsamp exP_subHead 1 0 2 (fun _ => 0) exS_zero).syn0 1 5 = 1 ∧
    exS_zero.syn0 1 5 = 0 ∧
    (fieldembed_negsamp exP_subHead 1 0 2 (fun _ => 0) exS_zero).syn0 0 4 = 1 ∧
    exS_zero.syn0 0 4 = 0 ∧
    (fieldembed_negsamp exP_subHead 1 0 2 (fun _ => 0) exS_zero).syn0 1 4 = 0 ∧
    (fieldembed_negsamp exP_subHead 1 0 2 (fun _ => 0) exS_zero).syn0 0 3 = 0 := by
  refine ⟨by decide, by decide, by decide, by with_unfolding_all rfl,
    by with_unfolding_all rfl, by with_unfolding_all rfl, by with_unfolding_all rfl,
    by with_unfolding_all rfl, by with_unfolding_all rfl⟩

/-! ## Packing invariants (claims C3, C4) -/

/-- every surviving value written by the subsampling token loop is `> 3`. -/
theorem packTokensSub_vals (sample : Bool) (sInt : ℕ → ℕ) :
    ∀ (ws : List ℕ) (st : PackState), (∀ w ∈ st.writes, 3 < w.2) →
      ∀ w ∈ (packTokensSub sample sInt ws st).writes, 3 < w.2 := by
  intro ws
  induction ws with
  | nil => intro st h; exact h
  | cons w ws ih =>
    intro st h
    by_cases h1 : w ≤ 3
    · have hred : packTokensSub sample sInt (w :: ws) st = packTokensSub sample sInt ws st := by
        simp only [packTokensSub]
        rw [if_pos h1]
      rw [hred]
      exact ih st h
    · have hpush : ∀ r : ℕ, ∀ v ∈ (pushToken st w r).writes, 3 < v.2 := by
        intro r v hv
        simp only [pushToken] at hv
        rcases List.mem_append.mp hv with hv | hv
        · exact h v hv
        · rcases List.mem_singleton.mp hv with rfl
          omega
      cases sample with
      | false =>
        rw [packTokensSub_cons_false sInt w ws st h1]
        split
        · exact hpush _
        · exact ih _ (hpush _)
      | true =>
        rw [packTokensSub_cons_true sInt w ws st h1]
        split
        · exact ih _ h
        · split
          · exact hpush _
          · exact ih _ (hpush _)

/-- every value written by the subsampling sentence loop is `> 3`. -/
theorem packOuterSub_vals (sample : Bool) (sInt : ℕ → ℕ) (indexes : List ℕ) :
    ∀ (sents : List ℕ) (idxStart : ℕ) (st : PackState), (∀ w ∈ st.writes, 3 < w.2) →
      ∀ w ∈ (packOuterSub sample sInt indexes sents idxStart st).writes, 3 < w.2 := by
  intro sents
  induction sents with
  | nil => intro _ st h; exact h
  | cons e rest ih =>
    intro idxStart st h
    simp only [packOuterSub]
    have h1 := packTokensSub_vals sample sInt
      ((indexes.drop idxStart).take (e - idxStart)) st h
    split
    · exact h1
    · exact ih e _ h1

/-- C3 (amended): the subsampling mode drops every token with vocabulary
index at most 3 — no such token is ever written into the packed index
buffer; the no-subsampling mode, by contrast, copies input indices
verbatim (see the counterexample). -/
theorem claim_C3 (sample : Bool) (sInt : ℕ → ℕ) (indexes sentenceIdx : List ℕ)
    (seed : ℕ) :
    ∀ w ∈ (train_batch_pack_sub sample sInt indexes sentenceIdx seed).writes,
      3 < w.2 := by
  unfold train_batch_pack_sub
  exact packOuterSub_vals sample sInt indexes sentenceIdx 0 (packInit seed)
    (fun w hw => absurd hw (List.not_mem_nil w))

/-- C3 counterexample: in the no-subsampling mode the reserved token `0`
is copied verbatim into the packed buffer (write `(0, 0)`), and the
training loop then visits position `0` as a target — a token with index
`≤ 3` is used in training. -/
theorem claim_C3_counterexample :
    (train_batch_pack_nosub [0] [1] 0).writes = [(0, 0)] ∧
    applyWrites (train_batch_pack_nosub [0] [1] 0).writes (fun _ => 0) 0 = 0 ∧
    ((0 : ℕ) ≤ 3) ∧
    trainTargets (applyWrites (train_batch_pack_nosub [0] [1] 0).sentWrites (fun _ => 0))
      (train_batch_pack_nosub [0] [1] 0).effSents = [0] := by
  refine ⟨by decide, by decide, by decide, by decide⟩

/-- witness for C3 on a concrete packed batch. -/
theorem claim_C3_witness :
    3 < (((0 : ℕ), (5 : ℕ))).2 :=
  claim_C3 false (fun _ => 0) [5] [1] 0 (0, 5) (by decide)

/-- the subsampling token loop never writes at or beyond capacity and
caps the effective-word count. -/
theorem packTokensSub_bound (sample : Bool) (sInt : ℕ → ℕ) :
    ∀ (ws : List ℕ) (st : PackState), st.effWords < MAX_SENTENCE_LEN →
      (∀ w ∈ st.writes, w.1 < MAX_SENTENCE_LEN) →
      (packTokensSub sample sInt ws st).effWords ≤ MAX_SENTENCE_LEN ∧
      ∀ w ∈ (packTokensSub sample sInt ws st).writes, w.1 < MAX_SENTENCE_LEN := by
  intro ws
  induction ws with
  | nil => intro st h hw; exact ⟨le_of_lt h, hw⟩
  | cons w ws ih =>
    intro st h hw
    by_cases h1 : w ≤ 3
    · have hred : packTokensSub sample sInt (w :: ws) st = packTokensSub sample sInt ws st := by
        simp only [packTokensSub]
        rw [if_pos h1]
      rw [hred]
      exact ih st h hw
    · have hpush : ∀ r : ℕ, ∀ v ∈ (pushToken st w r).writes, v.1 < MAX_SENTENCE_LEN := by
        intro r v hv
        simp only [pushToken] at hv
        rcases List.mem_append.mp hv with hv | hv
        · exact hw v hv
        · rcases List.mem_singleton.mp hv with rfl
          exact h
      have hpe : ∀ r : ℕ, (pushToken st w r).effWords = st.effWords + 1 := fun r => rfl
      cases sample with
      | false =>
        rw [packTokensSub_cons_false sInt w ws st h1]
        split
        · rename_i h3
          exact ⟨le_of_eq h3, hpush _⟩
        · rename_i h3
          refine ih _ ?_ (hpush _)
          rw [hpe] at h3 ⊢
          omega
      | true =>
        rw [packTokensSub_cons_true sInt w ws st h1]
        split
        · exact ih _ h hw
        · split
          · rename_i h3
            exact ⟨le_of_eq h3, hpush _⟩
          · rename_i h3
            refine ih _ ?_ (hpush _)
            rw [hpe] at h3 ⊢
            omega

/-- the subsampling sentence loop preserves the capacity bound. -/
theorem packOuterSub_bound (sample : Bool) (sInt : ℕ → ℕ) (indexes : List ℕ) :
    ∀ (sents : List ℕ) (idxStart : ℕ) (st : PackState), st.effWords < MAX_SENTENCE_LEN →
      (∀ w ∈ st.writes, w.1 < MAX_SENTENCE_LEN) →
      (packOuterSub sample sInt indexes sents idxStart st).effWords ≤ MAX_SENTENCE_LEN ∧
      ∀ w ∈ (packOuterSub sample sInt indexes sents idxStart st).writes,
        w.1 < MAX_SENTENCE_LEN := by
  intro sents
  induction sents with
  | nil => intro _ st h hw; exact ⟨le_of_lt h, hw⟩
  | cons e rest ih =>
    intro idxStart st h hw
    simp only [packOuterSub]
    have h1 := packTokensSub_bound sample sInt
      ((indexes.drop idxStart).take (e - idxStart)) st h hw
    split
    · exact h1
    · rename_i h3
      exact ih e _ (Nat.lt_of_le_of_ne h1.1 h3) h1.2

/-- C4 (amended): only the subsampling mode truncates — it writes only at
positions below the fixed capacity `MAX_SENTENCE_LEN = 10000` and returns
an effective-token count capped at `MAX_SENTENCE_LEN`; the no-subsampling
mode copies everything and overflows (see the counterexample). -/
theorem claim_C4 (sample : Bool) (sInt : ℕ → ℕ) (indexes sentenceIdx : List ℕ)
    (seed : ℕ) :
    (train_batch_pack_sub sample sInt indexes sentenceIdx seed).effWords ≤
      MAX_SENTENCE_LEN ∧
    ∀ w ∈ (train_batch_pack_sub sample sInt indexes sentenceIdx seed).writes,
      w.1 < MAX_SENTENCE_LEN := by
  unfold train_batch_pack_sub
  exact packOuterSub_bound sample sInt indexes sentenceIdx 0 (packInit seed)
    (by show 0 < MAX_SENTENCE_LEN; decide)
    (fun w hw => absurd hw (List.not_mem_nil w))

/-- C4 counterexample: a no-subsampling batch of 10001 tokens returns
`effective_words = 10001 > MAX_SENTENCE_LEN` and performs a write at
buffer position `10000`, one past the last valid slot of the
fixed-capacity `c.indexes[MAX_SENTENCE_LEN]` array — no truncation and no
capped count. -/
theorem claim_C4_counterexample :
    (train_batch_pack_nosub (List.replicate 10001 7) [10001] 0).effWords = 10001 ∧
    MAX_SENTENCE_LEN < 10001 ∧
    (train_batch_pack_nosub (List.replicate 10001 7) [10001] 0).writes.getD 10000 (0, 0) =
      (10000, 7) := by
  refine ⟨List.length_replicate _ _, by decide, ?_⟩
  show ((List.replicate (10001 : ℕ) (7 : ℕ)).enum).getD 10000 (0, 0) = (10000, 7)
  rw [List.getD_eq_getElem _ _ (by rw [List.enum_length, List.length_replicate]; norm_num)]
  rw [List.getElem_enum, List.getElem_replicate]

/-- witness for C4 on a concrete packed batch. -/
theorem claim_C4_witness :
    (train_batch_pack_sub false (fun _ => 0) [5] [1] 0).effWords ≤ MAX_SENTENCE_LEN ∧
      ((0 : ℕ), (5 : ℕ)).1 < MAX_SENTENCE_LEN :=
  ⟨(claim_C4 false (fun _ => 0) [5] [1] 0).1,
    (claim_C4 false (fun _ => 0) [5] [1] 0).2 (0, 5) (by decide)⟩

/-! ## EndIdx read discipline (claim C10) -/

/-- window membership characterisation for `ctxPositions`. -/
theorem mem_ctxPositions (i j k m : ℕ) (hm : m ∈ List.range' j (k - j)) (hne : m ≠ i) :
    m ∈ ctxPositions i j k := by
  unfold ctxPositions
  rw [List.mem_filter]
  exact ⟨hm, by simpa using hne⟩

/-- the per-token sub aggregation reads `EndIdx` only at `t - 1` and `t`
for the token index `t`; for `1 ≤ t < N` both reads are inside `[0, N)`,
so any table agreeing there gives the same result. -/
theorem subAggToken_endIdx_congr (p : KParams) (e : ℕ → ℤ → ℕ) (N : ℤ)
    (hagree : ∀ fld t, 0 ≤ t → t < N → e fld t = p.endIdx fld t)
    (m : ℕ) (h1 : 1 ≤ p.indexes m) (h2 : (p.indexes m : ℤ) < N)
    (fld : ℕ) (syn0f neu1 : Vec) :
    subAggToken { p with endIdx := e } fld syn0f neu1 m = subAggToken p fld syn0f neu1 m := by
  simp only [subAggToken]
  rw [hagree fld ((p.indexes m : ℤ) - 1) (by omega) (by omega),
    hagree fld (p.indexes m) (by omega) (by omega)]

/-- the sub aggregation block depends on `EndIdx` only through the context
tokens' reads. -/
theorem subAggregate_endIdx_congr (p : KParams) (e : ℕ → ℤ → ℕ) (N : ℤ)
    (hagree : ∀ fld t, 0 ≤ t → t < N → e fld t = p.endIdx fld t)
    (i j k : ℕ)
    (htok : ∀ m ∈ ctxPositions i j k, 1 ≤ p.indexes m ∧ (p.indexes m : ℤ) < N) :
    ∀ (syn0f : Vec) (invC : ℚ) (neu1 : Vec),
      subAggregate { p with endIdx := e } 0 syn0f i j k invC neu1 =
        subAggregate p 0 syn0f i j k invC neu1 := by
  intro syn0f invC neu1
  simp only [subAggregate]
  refine congrArg (fun v => sscal p.size invC v (0 * p.size)) ?_
  apply List.foldl_ext
  intro acc m hm
  by_cases hmi : m = i
  · rw [if_pos hmi, if_pos hmi]
  · rw [if_neg hmi, if_neg hmi]
    obtain ⟨ht1, ht2⟩ := htok m (mem_ctxPositions i j k m hm hmi)
    exact subAggToken_endIdx_congr p e N hagree m ht1 ht2 0 syn0f acc

/-- the sub scatter block likewise depends on `EndIdx` only through the
context tokens' reads. -/
theorem scatterSub_endIdx_congr (p : KParams) (e : ℕ → ℤ → ℕ) (N : ℤ)
    (hagree : ∀ fld t, 0 ≤ t → t < N → e fld t = p.endIdx fld t)
    (i j k : ℕ)
    (htok : ∀ m ∈ ctxPositions i j k, 1 ≤ p.indexes m ∧ (p.indexes m : ℤ) < N) :
    ∀ (wk syn0f : Vec),
      scatterSub { p with endIdx := e } 0 i j k wk syn0f =
        scatterSub p 0 i j k wk syn0f := by
  intro wk syn0f
  simp only [scatterSub]
  apply List.foldl_ext
  intro acc m hm
  by_cases hmi : m = i
  · rw [if_pos hmi, if_pos hmi]
  · rw [if_neg hmi, if_neg hmi]
    obtain ⟨ht1, ht2⟩ := htok m (mem_ctxPositions i j k m hm hmi)
    rw [hagree 0 ((p.indexes m : ℤ) - 1) (by omega) (by omega),
      hagree 0 (p.indexes m) (by omega) (by omega)]

/-- C10: (a) in the per-token update, the slice bounds of a context token
`t` are read at `EndIdx[t-1]` and `EndIdx[t]`; whenever every context
token satisfies `1 ≤ t < N` the kernel result is independent of the
`EndIdx` table outside `[0, N)` — both reads are inside the table.
(b) a context token with vocabulary index `0` makes the kernel read
`EndIdx[-1]`, one element before the array: two tables agreeing at every
`t ≥ 0` but differing before the start produce different `syn1neg`
contents.  (c) index `0` reaches the kernel through the public
no-subsampling mode, which copies input indices verbatim. -/
theorem claim_C10 :
    (∀ (p : KParams) (N : ℤ) (i j k : ℕ) (st : KState) (e : ℕ → ℤ → ℕ),
      (∀ m ∈ ctxPositions i j k, 1 ≤ p.indexes m ∧ (p.indexes m : ℤ) < N) →
      (∀ fld t, 0 ≤ t → t < N → e fld t = p.endIdx fld t) →
      fieldembed_token_neg_0X1_neat { p with endIdx := e } i j k st =
        fieldembed_token_neg_0X1_neat p i j k st) ∧
    ((∀ (fld : ℕ) (t : ℤ), 0 ≤ t → exE_alt fld t = exP_ctx0.endIdx fld t) ∧
      exP_ctx0.indexes 0 = 0 ∧
      (fieldembed_token_neg_0X1_neat exP_ctx0 1 0 1 exS_ctx0).syn1neg 4 = 5 / 2 ∧
      (fieldembed_token_neg_0X1_neat { exP_ctx0 with endIdx := exE_alt } 1 0 1
        exS_ctx0).syn1neg 4 = 2) ∧
    (train_batch_pack_nosub [0] [1] 0).writes = [(0, 0)] := by
  refine ⟨?_, ⟨?_, by decide, by with_unfolding_all rfl, by with_unfolding_all rfl⟩,
    by decide⟩
  · intro p N i j k st e htok hagree
    have hstep : neatStep { p with endIdx := e } = neatStep p := rfl
    have hhead : headAggregate { p with endIdx := e } = headAggregate p := rfl
    have hscat : scatterHead { p with endIdx := e } = scatterHead p := rfl
    have hgrad : gradScale { p with endIdx := e } = gradScale p := rfl
    have hsub := subAggregate_endIdx_congr p e N hagree i j k htok
    have hsc := scatterSub_endIdx_congr p e N hagree i j k htok
    simp only [fieldembed_token_neg_0X1_neat]
    rw [hstep, hhead, hscat, hgrad]
    simp only [hsub, hsc]
  · intro fld t ht
    show (if t = -1 then 1 else if t < 0 then 0 else if t = 0 then 1 else t.toNat + 1) =
      (if t < 0 then 0 else if t = 0 then 1 else t.toNat + 1)
    rw [if_neg (by omega)]

/-- witness for C10 part (a): padding the table before the array start
leaves a concrete run unchanged when all context tokens are `≥ 1`. -/
theorem claim_C10_witness :
    fieldembed_token_neg_0X1_neat { exP_subOnly with endIdx := exE_pad } 1 0 2 exS_zero =
      fieldembed_token_neg_0X1_neat exP_subOnly 1 0 2 exS_zero :=
  claim_C10.1 exP_subOnly 6 1 0 2 exS_zero exE_pad (by decide)
    (fun fld t h1 h2 => by
      show (if t < 0 then 77 else t.toNat) = t.toNat
      rw [if_neg (by omega)])

/-- with no sub field and loss tracking off, one `d` iteration of the two
loops produces related states and leaves the variable `i` untouched. -/
theorem step_rel (p : KParams) (hsub : p.useSub = 0) (hloss : p.computeLoss = 0)
    (w : ℕ) (neu : Vec) (d : ℕ) (s1 : DState) (s2 : NState) (h : DNRel s1 s2) :
    DNRel (neatStep p w neu s1 d) (negStep p w neu s2 d) ∧
      (negStep p w neu s2 d).iVar = s2.iVar := by
  obtain ⟨hw, hs, hl, hr⟩ := h
  simp only [neatStep, negStep, hr]
  rcases hdt : drawTarget p w s2.rng d with ⟨_ | ⟨target, label⟩, rng1⟩
  · exact ⟨⟨hw, hs, hl, rfl⟩, rfl⟩
  · simp only [hsub, hloss, hw, hs, hl]
    by_cases hh : p.useHead ≠ 0
    · simp only [hh, if_true, ne_eq, OfNat.zero_ne_ofNat, not_false_eq_true,
        zero_ne_one, if_false, ite_true, ite_false, not_true_eq_false, zero_mul,
        not_not, reduceIte]
      by_cases hsat : saturated (our_dot p.size neu 0 s2.syn1neg (target * p.size))
      · simp [hsat, hh, DNRel, negPhase2, hsub]
      · simp [hsat, hh, DNRel, negPhase2, hsub, Function.update_same]
    · simp [hh, DNRel, negPhase2, hsub]

/-- the two negative-sampling loops stay related across the whole
`d = 0 .. negative` fold. -/
theorem fold_rel (p : KParams) (hsub : p.useSub = 0) (hloss : p.computeLoss = 0)
    (w : ℕ) (neu : Vec) :
    ∀ (l : List ℕ) (s1 : DState) (s2 : NState), DNRel s1 s2 →
      DNRel (l.foldl (neatStep p w neu) s1) (l.foldl (negStep p w neu) s2) ∧
      (l.foldl (negStep p w neu) s2).iVar = s2.iVar := by
  intro l
  induction l with
  | nil => intro s1 s2 h; exact ⟨h, rfl⟩
  | cons d l ih =>
    intro s1 s2 h
    simp only [List.foldl_cons]
    obtain ⟨h1, h2⟩ := step_rel p hsub hloss w neu d s1 s2 h
    obtain ⟨h3, h4⟩ := ih _ _ h1
    exact ⟨h3, h4.trans h2⟩

/-- C2 (amended): the two kernel variants coincide exactly when the sub
field is disabled and loss tracking is off: for identical inputs,
`fieldembed_negsamp` and `fieldembed_token_neg_0X1_neat` then return
identical states.  (With `use_sub ≥ 1` the inner `for i in range(use_sub)`
loop of `fieldembed_negsamp` clobbers the target position used by the
scatter phase, and with loss tracking on the neat variant computes the
gradient from the sign-flipped dot product — see the counterexample.) -/
theorem claim_C2 (p : KParams) (i j k : ℕ) (gInit : ℕ → ℚ) (st : KState)
    (hsub : p.useSub = 0) (hloss : p.computeLoss = 0) :
    fieldembed_negsamp p i j k gInit st = fieldembed_token_neg_0X1_neat p i j k st := by
  simp only [fieldembed_negsamp, fieldembed_token_neg_0X1_neat]
  obtain ⟨⟨hw, hs, hl, hr⟩, hiv⟩ := fold_rel p hsub hloss (p.indexes i)
    (if p.useHead ≠ 0 then
      headAggregate p (if p.useSub ≠ 0 then 1 else 0)
        (st.syn0 (if p.useSub ≠ 0 then 1 else 0)) i j k (invCountOf i j k)
        (if p.useSub ≠ 0 then
          subAggregate p 0 (st.syn0 0) i j k (invCountOf i j k)
            (memsetZero st.neu1 0 ((p.useHead + p.useSub) * p.size))
        else memsetZero st.neu1 0 ((p.useHead + p.useSub) * p.size))
    else
      if p.useSub ≠ 0 then
        subAggregate p 0 (st.syn0 0) i j k (invCountOf i j k)
          (memsetZero st.neu1 0 ((p.useHead + p.useSub) * p.size))
      else memsetZero st.neu1 0 ((p.useHead + p.useSub) * p.size))
    (List.range (p.negative + 1))
    ⟨memsetZero st.work 0 ((p.useHead + p.useSub) * p.size), st.syn1neg, st.loss, st.rng⟩
    ⟨memsetZero st.work 0 ((p.useHead + p.useSub) * p.size), st.syn1neg, st.loss, st.rng,
      gInit, i⟩
    ⟨rfl, rfl, rfl, rfl⟩
  simp only [KState.mk.injEq]
  simp only [hiv, hw, hs, hl, hr]
  simp [hsub]

/-- witness for C2 on a concrete head-only input. -/
theorem claim_C2_witness :
    fieldembed_negsamp exP_headOnly 1 0 2 (fun _ => 0) exS_zero =
      fieldembed_token_neg_0X1_neat exP_headOnly 1 0 2 exS_zero :=
  claim_C2 exP_headOnly 1 0 2 (fun _ => 0) exS_zero rfl rfl

end FieldEmbed
